import Mathlib

/-!
Shallow embedding of the CryptoMonitor monitoring engine
(`app/services/price_monitor.py`, `app/models/crypto.py`,
`app/models/observer.py`) and verification of the specification claims.

Modelling conventions:
* Python `float` prices, thresholds and percentages are modelled as exact
  rationals (`ℚ`); the one irrational operation in the code (the standard
  deviation's square root inside pandas `rolling(...).std()`) is abstracted
  as an arbitrary function `sqrtQ : ℚ → ℚ` threaded through the statistics
  computation, so every theorem about presence/absence and data flow holds
  for any square-root implementation.
* `datetime` timestamps are modelled as `ℕ`.
* Python `dict`s (which preserve insertion order, update values in place and
  append new keys at the end) are modelled as association lists with the
  operations `lookupA` / `insertA` below.
* `collections.deque(maxlen=n)` is modelled by `BoundedDeque`.
-/

namespace CryptoMonitor

/-- Lookup in an association list; returns the value of the first matching
key, mirroring a Python `dict` access (keys are unique in all reachable
states). -/
def lookupA {κ β : Type} [DecidableEq κ] (k : κ) : List (κ × β) → Option β
  | [] => none
  | (k', v) :: rest => if k' = k then some v else lookupA k rest

/-- Insert/update in an association list, mirroring Python `dict`
assignment: an existing key keeps its position and gets the new value, a
new key is appended at the end. -/
def insertA {κ β : Type} [DecidableEq κ] (k : κ) (v : β) : List (κ × β) → List (κ × β)
  | [] => [(k, v)]
  | (k', v') :: rest => if k' = k then (k, v) :: rest else (k', v') :: insertA k v rest

/-! ## Data model (`app/models/crypto.py`) -/

/-- `PriceAlertType`: the kinds of alerts; only the first two are produced
by the monitoring engine. -/
inductive PriceAlertType where
  | price_increase
  | price_decrease
  | volatility
  | volume_spike
  | market_cap_change
deriving DecidableEq, Repr

/-- `CryptoTick`: one immutable price snapshot for one coin. -/
structure CryptoTick where
  coin_id : String
  symbol : String
  price_usd : ℚ
  market_cap_usd : Option ℚ := none
  volume_24h_usd : Option ℚ := none
  price_change_24h_percent : Option ℚ := none
  timestamp : ℕ
deriving DecidableEq, Repr

/-- `PriceAlert`: an alert produced when a price move crosses the threshold.
The derived display string `message` (built in `__post_init__` purely from
the other fields) is a presentation artifact and is not modelled. -/
structure PriceAlert where
  coin_id : String
  symbol : String
  alert_type : PriceAlertType
  old_price_usd : ℚ
  new_price_usd : ℚ
  change_percent : ℚ
  timestamp : ℕ
deriving DecidableEq, Repr

/-- `StatisticsModel`: per-coin statistics snapshot; `rsi_14` is never
computed by the engine and stays `none`. -/
structure StatisticsModel where
  coin_id : String
  symbol : String
  current_price : ℚ
  sma_20 : Option ℚ := none
  ema_20 : Option ℚ := none
  volatility_24h : Option ℚ := none
  rsi_14 : Option ℚ := none
  timestamp : ℕ
deriving DecidableEq, Repr

/-! ## Bounded deque (`collections.deque(maxlen=n)`) -/

/-- A `collections.deque(maxlen = maxlen)`: a FIFO buffer that keeps at
most `maxlen` elements, evicting from the front on overflow. -/
structure BoundedDeque (α : Type) where
  maxlen : ℕ
  items : List α
deriving DecidableEq, Repr

/-- `deque.append`: add at the right end; if the deque is full the leftmost
element is discarded (in general, only the last `maxlen` elements are
kept). -/
def BoundedDeque.push {α : Type} (d : BoundedDeque α) (a : α) : BoundedDeque α :=
  let l := d.items ++ [a]
  { d with items := l.drop (l.length - d.maxlen) }

/-- An empty deque with the given capacity. -/
def BoundedDeque.empty (α : Type) (maxlen : ℕ) : BoundedDeque α :=
  { maxlen := maxlen, items := [] }

/-- Appending a whole list of elements in order. -/
def BoundedDeque.pushAll {α : Type} (d : BoundedDeque α) (xs : List α) : BoundedDeque α :=
  xs.foldl BoundedDeque.push d

/-! ## Engine configuration and state (`PriceMonitor.__init__`) -/

/-- The configuration the monitor reads from `settings`
(`app/config.py`): tracked coin ids, polling interval, alert threshold
and statistics buffer capacity. -/
structure Config where
  crypto_ids : List String
  interval : ℕ
  threshold : ℚ
  buffer_size : ℕ
deriving DecidableEq, Repr

/-- The mutable state owned by `PriceMonitor`: the `is_running` flag, the
`latest_ticks` / `price_history` / `latest_stats` dictionaries, and the
`_task` slot.  Task identities are modelled as natural numbers:
`next_task_id` counts tasks ever spawned by `asyncio.create_task` and
`cancelled_tasks` records the cancelled ones. -/
structure EngineState where
  is_running : Bool
  latest_ticks : List (String × CryptoTick)
  price_history : List (String × BoundedDeque CryptoTick)
  latest_stats : List (String × StatisticsModel)
  task : Option ℕ
  next_task_id : ℕ
  cancelled_tasks : List ℕ
deriving DecidableEq, Repr

/-- `PriceMonitor.__init__`: not running, empty `latest_ticks` and
`latest_stats`, and one empty deque of capacity `buffer_size` per tracked
coin (a Python dict comprehension, i.e. repeated dict assignment). -/
def initialState (cfg : Config) : EngineState :=
  { is_running := false
    latest_ticks := []
    price_history :=
      cfg.crypto_ids.foldl
        (fun m c => insertA c (BoundedDeque.empty CryptoTick cfg.buffer_size) m) []
    latest_stats := []
    task := none
    next_task_id := 0
    cancelled_tasks := [] }

/-! ## Lifecycle (`PriceMonitor.start` / `PriceMonitor.stop`) -/

/-- `start()`: if already running, log a warning and return; otherwise set
`is_running` and spawn the monitoring task. -/
def start (s : EngineState) : EngineState :=
  if s.is_running then s
  else
    { s with
      is_running := true
      task := some s.next_task_id
      next_task_id := s.next_task_id + 1 }

/-- `stop()`: if not running, return; otherwise clear `is_running`, cancel
the task, await it swallowing the `CancelledError` (so `stop` never raises
— it is a total function here), and clear the task slot. -/
def stop (s : EngineState) : EngineState :=
  if s.is_running then
    { s with
      is_running := false
      task := none
      cancelled_tasks := s.cancelled_tasks ++ s.task.toList }
  else s

/-! ## Fetch responses and one cycle of the monitoring loop -/

/-- One coin's entry in the `/simple/price` response consumed by
`_fetch_and_process_prices`; each field may be absent from the JSON
object (the code reads them with `dict.get`). -/
structure CoinData where
  usd : Option ℚ := none
  usd_market_cap : Option ℚ := none
  usd_24h_vol : Option ℚ := none
  usd_24h_change : Option ℚ := none
deriving DecidableEq, Repr

/-- Failure of the data fetch: `CoinGeckoAPIError`, its `RateLimitError`
subtype, or any unexpected exception — all are caught by the loop. -/
inductive FetchError where
  | apiError (msg : String)
  | rateLimit
  | unexpected (msg : String)
deriving DecidableEq, Repr

/-- An event broadcast through the notification hub during a cycle. -/
inductive Event where
  | tick (t : CryptoTick)
  | alert (a : PriceAlert)
deriving DecidableEq, Repr

/-- The coin a broadcast event is about. -/
def Event.coinId : Event → String
  | .tick t => t.coin_id
  | .alert a => a.coin_id

/-- Tick construction in `_fetch_and_process_prices`: the symbol is set to
the coin id itself, and a missing `usd` field defaults to `0.0`. -/
def mkTick (coin_id : String) (d : CoinData) (now : ℕ) : CryptoTick :=
  { coin_id := coin_id
    symbol := coin_id
    price_usd := d.usd.getD 0
    market_cap_usd := d.usd_market_cap
    volume_24h_usd := d.usd_24h_vol
    price_change_24h_percent := d.usd_24h_change
    timestamp := now }

/-- The alert policy of `_fetch_and_process_prices` (lines 170–188): if a
previous latest tick exists, compute
`percent_change = (new - old) / old * 100` and produce an alert exactly
when `|percent_change| ≥ threshold`, typed by the sign of the change. -/
def checkAlert (threshold : ℚ) (oldTick : Option CryptoTick)
    (newTick : CryptoTick) (now : ℕ) : Option PriceAlert :=
  match oldTick with
  | none => none
  | some old =>
    let percent_change :=
      (newTick.price_usd - old.price_usd) / old.price_usd * 100
    if |percent_change| ≥ threshold then
      some
        { coin_id := newTick.coin_id
          symbol := newTick.symbol
          alert_type :=
            if percent_change > 0 then PriceAlertType.price_increase
            else PriceAlertType.price_decrease
          old_price_usd := old.price_usd
          new_price_usd := newTick.price_usd
          change_percent := percent_change
          timestamp := now }
    else none

/-- `self.price_history[coin_id].append(tick)`: in-place update of the
(unique) entry of the history dict with the given key. -/
def updateHistory (coin_id : String) (t : CryptoTick) :
    List (String × BoundedDeque CryptoTick) →
    List (String × BoundedDeque CryptoTick)
  | [] => []
  | (k, d) :: rest =>
    if k = coin_id then (k, d.push t) :: rest
    else (k, d) :: updateHistory coin_id t rest

/-- The per-coin body of the loop in `_fetch_and_process_prices`: if the
coin is absent from the response it is skipped (warning logged, `continue`);
otherwise a tick is built, the alert policy is evaluated against the
previous latest tick (the alert, when any, is broadcast before the tick),
`latest_ticks` is updated and the tick appended to the coin's history.
Returns the new state and the events broadcast, in broadcast order. -/
def processCoin (threshold : ℚ) (s : EngineState) (coin_id : String)
    (entry : Option CoinData) (now : ℕ) : EngineState × List Event :=
  match entry with
  | none => (s, [])
  | some d =>
    let newTick := mkTick coin_id d now
    let alertOpt := checkAlert threshold (lookupA coin_id s.latest_ticks) newTick now
    let events := (alertOpt.map Event.alert).toList ++ [Event.tick newTick]
    ({ s with
        latest_ticks := insertA coin_id newTick s.latest_ticks
        price_history := updateHistory coin_id newTick s.price_history },
      events)

/-- The `for coin_id in self.crypto_ids` loop of
`_fetch_and_process_prices`: process the coins in order, accumulating the
broadcast events. -/
def processCoins (threshold : ℚ) : List String → EngineState →
    List (String × CoinData) → ℕ → EngineState × List Event
  | [], s, _, _ => (s, [])
  | coin :: rest, s, resp, now =>
    let r := processCoin threshold s coin (lookupA coin resp) now
    let r2 := processCoins threshold rest r.1 resp now
    (r2.1, r.2 ++ r2.2)

/-- `_fetch_and_process_prices` after a successful fetch: process every
tracked coin against the response. -/
def fetchAndProcess (cfg : Config) (s : EngineState)
    (resp : List (String × CoinData)) (now : ℕ) : EngineState × List Event :=
  processCoins cfg.threshold cfg.crypto_ids s resp now

/-! ## Statistics engine (`PriceMonitor._calculate_statistics`) -/

/-- Stable insertion of a tick into a timestamp-sorted list (elements with
an earlier-or-equal timestamp stay in front). -/
def insertByTs (t : CryptoTick) : List CryptoTick → List CryptoTick
  | [] => [t]
  | u :: rest =>
    if u.timestamp ≤ t.timestamp then u :: insertByTs t rest
    else t :: u :: rest

/-- `df.sort_values("timestamp")`: sort the buffer by timestamp
ascending. -/
def sortByTs (l : List CryptoTick) : List CryptoTick :=
  l.foldr insertByTs []

/-- Arithmetic mean of a list of prices (`Series.mean`). -/
def mean (xs : List ℚ) : ℚ := xs.sum / xs.length

/-- The trailing window of `k` elements: the input of the last row of a
pandas rolling computation with window `k`. -/
def lastWindow (k : ℕ) (xs : List ℚ) : List ℚ := xs.drop (xs.length - k)

/-- Sample variance with `ddof = 1` (the square of the pandas rolling
`std`). -/
def sampleVar (xs : List ℚ) : ℚ :=
  (xs.map (fun x => (x - mean xs) ^ 2)).sum / ((xs.length : ℚ) - 1)

/-- The last value of `Series.ewm(span, adjust=True).mean()`: the weighted
mean of all points with weights `(1 - α) ^ age`, `α = 2 / (span + 1)`. -/
def ewmaLast (alpha : ℚ) (xs : List ℚ) : ℚ :=
  let n := xs.length
  let weights := (List.range n).map (fun i => (1 - alpha) ^ (n - 1 - i))
  (List.zipWith (· * ·) weights xs).sum / weights.sum

/-- The per-coin statistics computation inside the `try` block of
`_calculate_statistics`.  `sqrtQ` abstracts the floating-point square root
taken inside the pandas rolling standard deviation.  The computation can
raise (modelled by `Except`): in the source, `self.latest_ticks[coin_id]`
raises `KeyError` when the coin has no latest tick.  For the last row of
the DataFrame (which is all the code keeps):
* `sma_20` exists only when the buffer length is at least 20 and is the
  mean of the trailing 20 prices;
* `ema_20` exists under the same gate (the `min_periods` floor
  `min(20, len - 1)` is always satisfied at the last row when the column
  is computed at all);
* `volatility_24h` exists only when the length is at least 5 and is the
  sample standard deviation of the trailing `min(24, len)` prices as a
  percentage of the overall mean price. -/
def computeStatsForCoin (sqrtQ : ℚ → ℚ)
    (latest_ticks : List (String × CryptoTick)) (coin_id : String)
    (history : List CryptoTick) (now : ℕ) : Except String StatisticsModel :=
  let sorted := sortByTs history
  let prices := sorted.map (·.price_usd)
  let n := prices.length
  match lookupA coin_id latest_ticks with
  | none => Except.error "KeyError: coin has no latest tick"
  | some lt =>
    Except.ok
      { coin_id := coin_id
        symbol := lt.symbol
        current_price := (prices.getLast?).getD 0
        sma_20 := if 20 ≤ n then some (mean (lastWindow 20 prices)) else none
        ema_20 := if 20 ≤ n then some (ewmaLast (2 / 21) prices) else none
        volatility_24h :=
          if 5 ≤ n then
            some (sqrtQ (sampleVar (lastWindow (min 24 n) prices)) / mean prices * 100)
          else none
        rsi_14 := none
        timestamp := now }

/-- The loop of `_calculate_statistics`, generic in the per-coin
computation (so that an arbitrary per-coin exception can be considered):
coins with fewer than 2 buffered ticks are skipped; a failing computation
is caught and logged, leaving that coin's previous statistics in place and
continuing with the remaining coins. -/
def statsLoop
    (compute : String → List CryptoTick → Except String StatisticsModel) :
    List (String × BoundedDeque CryptoTick) →
    List (String × StatisticsModel) → List (String × StatisticsModel)
  | [], stats => stats
  | entry :: rest, stats =>
    if entry.2.items.length < 2 then statsLoop compute rest stats
    else
      match compute entry.1 entry.2.items with
      | Except.ok st => statsLoop compute rest (insertA entry.1 st stats)
      | Except.error _ => statsLoop compute rest stats

/-- `_calculate_statistics` generic in the per-coin computation: the dict
of buffers is walked in order and only `latest_stats` is touched. -/
def calculateStatisticsWith
    (compute : String → List CryptoTick → Except String StatisticsModel)
    (s : EngineState) : EngineState :=
  { s with latest_stats := statsLoop compute s.price_history s.latest_stats }

/-- `_calculate_statistics` with the concrete per-coin computation. -/
def calculateStatistics (sqrtQ : ℚ → ℚ) (now : ℕ) (s : EngineState) :
    EngineState :=
  calculateStatisticsWith
    (fun coin_id history => computeStatsForCoin sqrtQ s.latest_ticks coin_id history now) s

/-! ## One iteration of `_monitoring_loop` -/

/-- The `try` block of one iteration of `_monitoring_loop`: fetch and
process the prices, then recompute statistics.  Any fetch failure
(`CoinGeckoAPIError`, `RateLimitError`, or an unexpected exception) is
caught after the `try` block, so on failure the statistics recomputation
is **not** reached: the state is left unchanged, nothing is broadcast, and
control proceeds to the sleep. -/
def monitorCycle (cfg : Config) (sqrtQ : ℚ → ℚ) (s : EngineState)
    (fetch : Except FetchError (List (String × CoinData))) (now : ℕ) :
    EngineState × List Event :=
  match fetch with
  | Except.error _ => (s, [])
  | Except.ok resp =>
    let r := fetchAndProcess cfg s resp now
    (calculateStatistics sqrtQ now r.1, r.2)

/-- One full iteration of the `while self.is_running` loop including the
loop guard: returns the new state, the events broadcast, and whether the
loop runs another iteration after the sleep. -/
def loopStep (cfg : Config) (sqrtQ : ℚ → ℚ) (s : EngineState)
    (fetch : Except FetchError (List (String × CoinData))) (now : ℕ) :
    EngineState × List Event × Bool :=
  if s.is_running then
    let r := monitorCycle cfg sqrtQ s fetch now
    (r.1, r.2, r.1.is_running)
  else (s, [], false)

/-! ## Notification hub (`app/models/observer.py`)

`Observable` keeps its observers in a Python `set` and
`notify_observers` runs `for observer in self._observers: await
observer.update(...)` — it iterates the **live** set with no `try`/`except`
around the awaited handler.  Observers are identified by naturals; the
registry is a duplicate-free list (`set.add` appends if absent,
`set.discard` removes if present).  A handler's behaviour during one
`update` call is summarised by `HandlerSpec`: the observers it registers
and unregisters on the same observable during its await, and whether it
raises.  CPython's set iterator compares the set's current size against
the size recorded when iteration began on **every** `__next__` call and
raises `RuntimeError` on a mismatch; a handler that raises propagates its
exception to the caller of `notify_observers`. -/

/-- What one observer's `update` handler does when invoked: registry
mutations it performs on the observable, and whether it raises.  When it
raises, its mutations are not applied (the exception pre-empts them). -/
structure HandlerSpec where
  registers : List ℕ := []
  unregisters : List ℕ := []
  throws : Bool := false
deriving DecidableEq, Repr

/-- `set.add`: append if not present. -/
def addObserver (l : List ℕ) (o : ℕ) : List ℕ :=
  if o ∈ l then l else l ++ [o]

/-- `set.discard`: remove if present, no-op otherwise. -/
def removeObserver (l : List ℕ) (o : ℕ) : List ℕ :=
  l.filter (fun x => x ≠ o)

/-- Apply one handler's registry mutations (`register_observer` calls,
then `unregister_observer` calls). -/
def applyHandler (reg : List ℕ) (h : HandlerSpec) : List ℕ :=
  h.unregisters.foldl removeObserver (h.registers.foldl addObserver reg)

/-- How a broadcast terminates abnormally: the iterator's
`RuntimeError: Set changed size during iteration`, or an exception raised
by an observer's handler — neither is caught by `notify_observers`. -/
inductive NotifyError where
  | runtimeError
  | handlerException (o : ℕ)
deriving DecidableEq, Repr

/-- Outcome of `notify_observers`: the observers actually delivered to (in
order), the final registry, and the exception that escaped, if any. -/
structure NotifyResult where
  delivered : List ℕ
  registry : List ℕ
  error : Option NotifyError
deriving DecidableEq, Repr

/-- The iteration of `for observer in self._observers`: `pending` are the
elements left to yield, `reg` the live set, `siUsed` the set size recorded
when the iterator was created.  Every `__next__` call — including the
final one that would raise `StopIteration` — first checks the live size
against `siUsed` and raises `RuntimeError` on mismatch. -/
def notifyFrom (h : ℕ → HandlerSpec) :
    List ℕ → List ℕ → ℕ → List ℕ → NotifyResult
  | [], reg, siUsed, delivered =>
    if reg.length ≠ siUsed then ⟨delivered, reg, some NotifyError.runtimeError⟩
    else ⟨delivered, reg, none⟩
  | o :: rest, reg, siUsed, delivered =>
    if reg.length ≠ siUsed then ⟨delivered, reg, some NotifyError.runtimeError⟩
    else if (h o).throws then ⟨delivered, reg, some (NotifyError.handlerException o)⟩
    else notifyFrom h rest (applyHandler reg (h o)) siUsed (delivered ++ [o])

/-- `Observable.notify_observers`: iterate the live observer set,
awaiting each handler in turn. -/
def notifyObservers (h : ℕ → HandlerSpec) (reg : List ℕ) : NotifyResult :=
  notifyFrom h reg reg reg.length []

/-- A handler that neither mutates the registry nor raises. -/
def cleanHandler : HandlerSpec := {}

/-! ## State invariants -/

/-- Coherence of the engine's maps: the key set of `price_history` equals
the tracked-coin list, the key set of `latest_ticks` is contained in it,
and every coin with a non-empty buffer has a latest tick equal to the most
recently appended element of its buffer. -/
def MapsInv (cfg : Config) (s : EngineState) : Prop :=
  (∀ k : String, (lookupA k s.price_history).isSome = true ↔ k ∈ cfg.crypto_ids) ∧
  (∀ k : String, (lookupA k s.latest_ticks).isSome = true → k ∈ cfg.crypto_ids) ∧
  (∀ (k : String) (d : BoundedDeque CryptoTick),
    lookupA k s.price_history = some d → d.items ≠ [] →
    ∃ t, lookupA k s.latest_ticks = some t ∧ d.items.getLast? = some t)

/-- Every tick stored in `latest_ticks` or in a history buffer has a
strictly positive price. -/
def storedPricesPos (s : EngineState) : Prop :=
  (∀ p ∈ s.latest_ticks, 0 < p.2.price_usd) ∧
  (∀ p ∈ s.price_history, ∀ t ∈ p.2.items, 0 < t.price_usd)

/-! ## Concrete test fixtures -/

/-- A bitcoin tick with the given price and timestamp. -/
def tickOf (p : ℚ) (ts : ℕ) : CryptoTick :=
  { coin_id := "bitcoin", symbol := "bitcoin", price_usd := p, timestamp := ts }

/-- A small configuration tracking only bitcoin. -/
def cfgB : Config :=
  { crypto_ids := ["bitcoin"], interval := 30, threshold := 1, buffer_size := 10 }

/-- Four ticks with prices 10, 20, 30, 40 (the capacity-3 eviction
scenario of the spec). -/
def ticks4 : List CryptoTick :=
  [tickOf 10 1, tickOf 20 2, tickOf 30 3, tickOf 40 4]

/-- A running engine state with two buffered bitcoin ticks, ripe for a
statistics recomputation. -/
def sTwoTicks : EngineState :=
  { is_running := true
    latest_ticks := [("bitcoin", tickOf 20 2)]
    price_history := [("bitcoin", { maxlen := 10, items := [tickOf 10 1, tickOf 20 2] })]
    latest_stats := []
    task := some 0
    next_task_id := 1
    cancelled_tasks := [] }

/-- A fetch response whose bitcoin entry is present but lacks the `usd`
field. -/
def respNoUsd : List (String × CoinData) := [("bitcoin", {})]

/-- A fetch response with a positive bitcoin price. -/
def respPos : List (String × CoinData) := [("bitcoin", { usd := some 5 })]

/-- A configuration tracking bitcoin and ethereum. -/
def cfg2 : Config :=
  { crypto_ids := ["bitcoin", "ethereum"], interval := 30, threshold := 1,
    buffer_size := 10 }

/-- A fetch response containing only ethereum (bitcoin missing). -/
def respEth : List (String × CoinData) := [("ethereum", { usd := some 7 })]

/-- The statistics snapshot computed from two buffered ticks (too short
for SMA/EMA/volatility). -/
def stW : StatisticsModel :=
  { coin_id := "bitcoin", symbol := "bitcoin", current_price := 20,
    timestamp := 3 }

/-- A per-coin statistics computation that always fails. -/
def errCompute : String → List CryptoTick → Except String StatisticsModel :=
  fun _ _ => Except.error "boom"

/-- A handler family in which observer 0 unregisters observer 1 during its
`update`. -/
def hUnreg : ℕ → HandlerSpec :=
  fun o => if o = 0 then { unregisters := [1] } else {}

/-- A handler family in which observer 0 raises during its `update`. -/
def hThrow : ℕ → HandlerSpec :=
  fun o => if o = 0 then { throws := true } else {}

/-! ## Helper lemmas -/

theorem lookupA_insertA_self {κ β : Type} [DecidableEq κ] (k : κ) (v : β)
    (l : List (κ × β)) : lookupA k (insertA k v l) = some v := by
  induction l with
  | nil => simp [lookupA, insertA]
  | cons p rest ih =>
    obtain ⟨k', v'⟩ := p
    by_cases h : k' = k
    · simp [insertA, h, lookupA]
    · simp [insertA, h, lookupA, ih]

theorem lookupA_insertA_ne {κ β : Type} [DecidableEq κ] {k k' : κ} (v : β)
    (l : List (κ × β)) (h : k' ≠ k) :
    lookupA k (insertA k' v l) = lookupA k l := by
  induction l with
  | nil => simp [lookupA, insertA, h]
  | cons p rest ih =>
    obtain ⟨k₀, v₀⟩ := p
    by_cases h₀ : k₀ = k'
    · subst h₀
      simp [insertA, lookupA, h]
    · by_cases h₁ : k₀ = k
      · simp [insertA, h₀, lookupA, h₁, Ne.symm h]
      · simp [insertA, h₀, lookupA, h₁, ih]

theorem isSome_lookupA_insertA {κ β : Type} [DecidableEq κ] (k k' : κ) (v : β)
    (l : List (κ × β)) :
    (lookupA k (insertA k' v l)).isSome = true ↔
      k = k' ∨ (lookupA k l).isSome = true := by
  by_cases h : k' = k
  · subst h
    simp [lookupA_insertA_self]
  · rw [lookupA_insertA_ne v l h]
    constructor
    · exact fun hs => Or.inr hs
    · intro hs
      rcases hs with hs | hs
      · exact absurd hs.symm h
      · exact hs

theorem lookupA_mem {κ β : Type} [DecidableEq κ] {k : κ} {v : β}
    {l : List (κ × β)} (h : lookupA k l = some v) : (k, v) ∈ l := by
  induction l with
  | nil => simp [lookupA] at h
  | cons p rest ih =>
    obtain ⟨k', v'⟩ := p
    by_cases hk : k' = k
    · subst hk
      simp [lookupA] at h
      simp [h]
    · simp [lookupA, hk] at h
      exact List.mem_cons_of_mem _ (ih h)

theorem mem_insertA {κ β : Type} [DecidableEq κ] {p : κ × β} {k : κ} {v : β}
    {l : List (κ × β)} (h : p ∈ insertA k v l) : p = (k, v) ∨ p ∈ l := by
  induction l with
  | nil => simpa [insertA] using h
  | cons q rest ih =>
    obtain ⟨k₀, v₀⟩ := q
    by_cases h₀ : k₀ = k
    · simp [insertA, h₀] at h
      rcases h with h | h
      · exact Or.inl h
      · exact Or.inr (List.mem_cons_of_mem _ h)
    · simp [insertA, h₀] at h
      rcases h with h | h
      · exact Or.inr (by simp [h])
      · rcases ih h with h' | h'
        · exact Or.inl h'
        · exact Or.inr (List.mem_cons_of_mem _ h')

theorem BoundedDeque.maxlen_push {α : Type} (d : BoundedDeque α) (a : α) :
    (d.push a).maxlen = d.maxlen := rfl

theorem BoundedDeque.items_push {α : Type} (d : BoundedDeque α) (a : α) :
    (d.push a).items =
      (d.items ++ [a]).drop ((d.items ++ [a]).length - d.maxlen) := rfl

theorem BoundedDeque.length_push_le {α : Type} (d : BoundedDeque α) (a : α) :
    (d.push a).items.length ≤ d.maxlen := by
  simp only [BoundedDeque.push, List.length_drop]
  omega

/-- After pushing, the contents are the last `maxlen` elements of the old
contents followed by the new element. -/
theorem BoundedDeque.items_push_eq_drop {α : Type} (d : BoundedDeque α) (a : α)
    (l : List α) (h : d.items = l.drop (l.length - d.maxlen)) :
    (d.push a).items = (l ++ [a]).drop ((l ++ [a]).length - d.maxlen) := by
  obtain ⟨m, its⟩ := d
  dsimp only at h
  subst h
  simp only [BoundedDeque.push, List.length_drop, List.length_append,
    List.length_singleton]
  rcases Nat.le_total l.length m with hle | hge
  · have h0 : l.length - m = 0 := Nat.sub_eq_zero_of_le hle
    simp [h0]
  · have h2 : (l.drop (l.length - m) ++ [a]) =
        (l ++ [a]).drop (l.length - m) := by
      rw [List.drop_append_of_le_length (by omega)]
    rw [h2, List.drop_drop]
    congr 1
    omega

/-- Anything in a deque after a push was already there or is the new
element. -/
theorem BoundedDeque.mem_push {α : Type} {d : BoundedDeque α} {a t : α}
    (h : t ∈ (d.push a).items) : t ∈ d.items ∨ t = a := by
  have hsub : (d.push a).items ⊆ d.items ++ [a] := by
    simp only [BoundedDeque.push]
    exact List.drop_subset _ _
  have := hsub h
  rcases List.mem_append.mp this with h' | h'
  · exact Or.inl h'
  · simp at h'
    exact Or.inr h'

/-- A non-empty deque's last element after a push is the pushed
element. -/
theorem BoundedDeque.getLast_push {α : Type} (d : BoundedDeque α) (a : α)
    (h : (d.push a).items ≠ []) : (d.push a).items.getLast? = some a := by
  obtain ⟨m, its⟩ := d
  simp only [BoundedDeque.push, List.length_append, List.length_singleton] at h ⊢
  rcases Nat.eq_zero_or_pos m with hm | hm
  · exfalso
    apply h
    apply List.drop_eq_nil_of_le
    simp only [List.length_append, List.length_singleton]
    omega
  · rw [List.drop_append_of_le_length (by omega)]
    exact List.getLast?_concat _

theorem length_insertByTs (t : CryptoTick) (l : List CryptoTick) :
    (insertByTs t l).length = l.length + 1 := by
  induction l with
  | nil => rfl
  | cons u rest ih =>
    by_cases h : u.timestamp ≤ t.timestamp
    · simp [insertByTs, h, ih]
    · simp [insertByTs, h]

theorem length_sortByTs (l : List CryptoTick) :
    (sortByTs l).length = l.length := by
  induction l with
  | nil => rfl
  | cons t rest ih => simp [sortByTs, List.foldr] at ih ⊢
                      simp [length_insertByTs, ih]

theorem applyHandler_clean (reg : List ℕ) : applyHandler reg cleanHandler = reg := rfl

theorem BoundedDeque.pushAll_nil {α : Type} (d : BoundedDeque α) :
    d.pushAll [] = d := rfl

theorem BoundedDeque.pushAll_cons {α : Type} (d : BoundedDeque α) (a : α)
    (xs : List α) : d.pushAll (a :: xs) = (d.push a).pushAll xs := rfl

theorem BoundedDeque.maxlen_pushAll {α : Type} (xs : List α) :
    ∀ d : BoundedDeque α, (d.pushAll xs).maxlen = d.maxlen := by
  induction xs with
  | nil => intro d; rfl
  | cons a rest ih =>
    intro d
    rw [BoundedDeque.pushAll_cons, ih, BoundedDeque.maxlen_push]

/-- The contents of a deque after pushing a whole list: always the trailing
`maxlen` elements of everything ever pushed. -/
theorem BoundedDeque.items_pushAll {α : Type} (xs : List α) :
    ∀ (d : BoundedDeque α) (l : List α),
      d.items = l.drop (l.length - d.maxlen) →
      (d.pushAll xs).items = (l ++ xs).drop ((l ++ xs).length - d.maxlen) := by
  induction xs with
  | nil => intro d l h; simpa using h
  | cons a rest ih =>
    intro d l h
    rw [BoundedDeque.pushAll_cons]
    have h1 : (d.push a).items =
        (l ++ [a]).drop ((l ++ [a]).length - (d.push a).maxlen) := by
      rw [BoundedDeque.maxlen_push]
      exact BoundedDeque.items_push_eq_drop d a l h
    have h2 := ih (d.push a) (l ++ [a]) h1
    rw [BoundedDeque.maxlen_push] at h2
    simpa [List.append_assoc] using h2

/-! ### Frame lemmas for a processing cycle -/

theorem processCoin_none (th : ℚ) (s : EngineState) (c : String) (now : ℕ) :
    processCoin th s c none now = (s, []) := rfl

theorem processCoin_is_running (th : ℚ) (s : EngineState) (c : String)
    (e : Option CoinData) (now : ℕ) :
    (processCoin th s c e now).1.is_running = s.is_running := by
  cases e <;> rfl

theorem processCoin_latest_stats (th : ℚ) (s : EngineState) (c : String)
    (e : Option CoinData) (now : ℕ) :
    (processCoin th s c e now).1.latest_stats = s.latest_stats := by
  cases e <;> rfl

theorem lookupA_updateHistory (c : String) (t : CryptoTick)
    (l : List (String × BoundedDeque CryptoTick)) (k : String) :
    lookupA k (updateHistory c t l) =
      if k = c then (lookupA k l).map (fun d => d.push t) else lookupA k l := by
  induction l with
  | nil => by_cases h : k = c <;> simp [updateHistory, lookupA, h]
  | cons p rest ih =>
    obtain ⟨k₀, d₀⟩ := p
    by_cases h₀ : k₀ = c
    · subst h₀
      by_cases h₁ : k₀ = k
      · subst h₁
        simp [updateHistory, lookupA]
      · have hkc : k ≠ k₀ := Ne.symm h₁
        simp [updateHistory, lookupA, h₁, hkc]
    · by_cases h₁ : k₀ = k
      · subst h₁
        have hkc : k₀ ≠ c := h₀
        simp [updateHistory, lookupA, h₀, hkc]
      · simp only [updateHistory, if_neg h₀, lookupA, if_neg h₁]
        exact ih

theorem processCoin_ticks_ne (th : ℚ) (s : EngineState) {c k : String}
    (e : Option CoinData) (now : ℕ) (h : k ≠ c) :
    lookupA k (processCoin th s c e now).1.latest_ticks =
      lookupA k s.latest_ticks := by
  cases e with
  | none => rfl
  | some d => exact lookupA_insertA_ne _ _ (Ne.symm h)

theorem processCoin_hist_ne (th : ℚ) (s : EngineState) {c k : String}
    (e : Option CoinData) (now : ℕ) (h : k ≠ c) :
    lookupA k (processCoin th s c e now).1.price_history =
      lookupA k s.price_history := by
  cases e with
  | none => rfl
  | some d => simp [processCoin, lookupA_updateHistory, h]

theorem processCoin_ticks_self (th : ℚ) (s : EngineState) (c : String)
    (d : CoinData) (now : ℕ) :
    lookupA c (processCoin th s c (some d) now).1.latest_ticks =
      some (mkTick c d now) := lookupA_insertA_self _ _ _

theorem processCoin_hist_self (th : ℚ) (s : EngineState) (c : String)
    (d : CoinData) (now : ℕ) :
    lookupA c (processCoin th s c (some d) now).1.price_history =
      (lookupA c s.price_history).map (fun b => b.push (mkTick c d now)) := by
  simp [processCoin, lookupA_updateHistory]

theorem checkAlert_coin (th : ℚ) (old : Option CryptoTick) (new : CryptoTick)
    (now : ℕ) (a : PriceAlert) (h : checkAlert th old new now = some a) :
    a.coin_id = new.coin_id := by
  unfold checkAlert at h
  cases old with
  | none => exact absurd h (by simp)
  | some o =>
    dsimp only at h
    split at h
    · cases h
      rfl
    · exact absurd h (by simp)

theorem processCoin_events_coin (th : ℚ) (s : EngineState) (c : String)
    (e : Option CoinData) (now : ℕ) :
    ∀ ev ∈ (processCoin th s c e now).2, ev.coinId = c := by
  cases e with
  | none => intro ev hev; exact absurd hev (by simp [processCoin])
  | some d =>
    intro ev hev
    simp only [processCoin] at hev
    rcases halert : checkAlert th (lookupA c s.latest_ticks) (mkTick c d now) now
      with _ | a
    · rw [halert] at hev
      simp at hev
      subst hev
      rfl
    · rw [halert] at hev
      simp at hev
      rcases hev with hev | hev
      · subst hev
        simpa [Event.coinId, mkTick] using checkAlert_coin _ _ _ _ _ halert
      · subst hev
        rfl

theorem processCoins_nil (th : ℚ) (s : EngineState)
    (resp : List (String × CoinData)) (now : ℕ) :
    processCoins th [] s resp now = (s, []) := rfl

theorem processCoins_cons (th : ℚ) (c : String) (rest : List String)
    (s : EngineState) (resp : List (String × CoinData)) (now : ℕ) :
    processCoins th (c :: rest) s resp now =
      ((processCoins th rest (processCoin th s c (lookupA c resp) now).1 resp now).1,
        (processCoin th s c (lookupA c resp) now).2 ++
          (processCoins th rest (processCoin th s c (lookupA c resp) now).1 resp now).2) :=
  rfl

theorem processCoins_is_running (th : ℚ) (coins : List String)
    (resp : List (String × CoinData)) (now : ℕ) :
    ∀ s : EngineState,
      (processCoins th coins s resp now).1.is_running = s.is_running := by
  induction coins with
  | nil => intro s; rfl
  | cons c rest ih =>
    intro s
    rw [processCoins_cons]
    dsimp only
    rw [ih, processCoin_is_running]

theorem calculateStatisticsWith_is_running
    (f : String → List CryptoTick → Except String StatisticsModel)
    (s : EngineState) : (calculateStatisticsWith f s).is_running = s.is_running := rfl

theorem calculateStatisticsWith_latest_ticks
    (f : String → List CryptoTick → Except String StatisticsModel)
    (s : EngineState) :
    (calculateStatisticsWith f s).latest_ticks = s.latest_ticks := rfl

theorem calculateStatisticsWith_price_history
    (f : String → List CryptoTick → Except String StatisticsModel)
    (s : EngineState) :
    (calculateStatisticsWith f s).price_history = s.price_history := rfl

/-! ### Characterization of the statistics loop -/

theorem statsLoop_cons
    (f : String → List CryptoTick → Except String StatisticsModel)
    (k : String) (d : BoundedDeque CryptoTick)
    (rest : List (String × BoundedDeque CryptoTick))
    (stats : List (String × StatisticsModel)) :
    statsLoop f ((k, d) :: rest) stats =
      if d.items.length < 2 then statsLoop f rest stats
      else
        match f k d.items with
        | Except.ok st => statsLoop f rest (insertA k st stats)
        | Except.error _ => statsLoop f rest stats := rfl

theorem statsLoop_frame
    (f : String → List CryptoTick → Except String StatisticsModel)
    (coin : String) :
    ∀ (entries : List (String × BoundedDeque CryptoTick))
      (stats : List (String × StatisticsModel)),
      (∀ p ∈ entries, p.1 ≠ coin) →
      lookupA coin (statsLoop f entries stats) = lookupA coin stats := by
  intro entries
  induction entries with
  | nil => intro stats _; rfl
  | cons p rest ih =>
    intro stats hne
    obtain ⟨k, d⟩ := p
    have hk : k ≠ coin := hne (k, d) (by simp)
    have hrest : ∀ p ∈ rest, p.1 ≠ coin := fun q hq => hne q (by simp [hq])
    rw [statsLoop_cons]
    by_cases hlen : d.items.length < 2
    · rw [if_pos hlen]
      exact ih stats hrest
    · rw [if_neg hlen]
      cases hc : f k d.items with
      | ok st =>
        rw [ih _ hrest]
        exact lookupA_insertA_ne _ _ hk
      | error e => exact ih stats hrest

/-- Full characterization of one broadcast of the statistics loop: a
coin's resulting statistics depend only on that coin's own buffer and its
own computation outcome — a failure leaves its previous statistics and
does not disturb the other coins. -/
theorem statsLoop_lookup
    (f : String → List CryptoTick → Except String StatisticsModel)
    (coin : String) :
    ∀ (entries : List (String × BoundedDeque CryptoTick))
      (stats : List (String × StatisticsModel)),
      (entries.map Prod.fst).Nodup →
      lookupA coin (statsLoop f entries stats) =
        match lookupA coin entries with
        | none => lookupA coin stats
        | some d =>
          if d.items.length < 2 then lookupA coin stats
          else
            match f coin d.items with
            | Except.ok st => some st
            | Except.error _ => lookupA coin stats := by
  intro entries
  induction entries with
  | nil => intro stats _; rfl
  | cons p rest ih =>
    intro stats hnd
    obtain ⟨k, d⟩ := p
    rw [List.map_cons, List.nodup_cons] at hnd
    obtain ⟨hknotin, hndrest⟩ := hnd
    rw [statsLoop_cons]
    by_cases hk : k = coin
    · subst hk
      have hknotin' : k ∉ List.map Prod.fst rest := by simpa using hknotin
      have hrestne : ∀ p ∈ rest, p.1 ≠ k := by
        intro q hq hqk
        apply hknotin'
        rw [← hqk]
        exact List.mem_map_of_mem Prod.fst hq
      have hlk : lookupA k ((k, d) :: rest) = some d := by simp [lookupA]
      rw [hlk]
      dsimp only
      by_cases hlen : d.items.length < 2
      · rw [if_pos hlen, if_pos hlen]
        exact statsLoop_frame f k rest stats hrestne
      · rw [if_neg hlen, if_neg hlen]
        cases hc : f k d.items with
        | ok st =>
          dsimp only
          rw [statsLoop_frame f k rest _ hrestne]
          exact lookupA_insertA_self _ _ _
        | error e =>
          dsimp only
          exact statsLoop_frame f k rest _ hrestne
    · have hlk : lookupA coin ((k, d) :: rest) = lookupA coin rest := by
        simp [lookupA, hk]
      rw [hlk]
      by_cases hlen : d.items.length < 2
      · rw [if_pos hlen]
        exact ih stats hndrest
      · rw [if_neg hlen]
        cases hc : f k d.items with
        | ok st =>
          rw [ih _ hndrest]
          have hins : lookupA coin (insertA k st stats) = lookupA coin stats :=
            lookupA_insertA_ne _ _ hk
          cases lookupA coin rest with
          | none => simpa using hins
          | some d' =>
            dsimp only
            by_cases h2 : d'.items.length < 2
            · simpa [h2] using hins
            · cases f coin d'.items <;> simp [h2, hins]
        | error e => exact ih stats hndrest

/-! ### The start-size discipline of the notification loop -/

theorem notifyFrom_nil (h : ℕ → HandlerSpec) (reg : List ℕ) (siUsed : ℕ)
    (delivered : List ℕ) :
    notifyFrom h [] reg siUsed delivered =
      if reg.length ≠ siUsed then ⟨delivered, reg, some NotifyError.runtimeError⟩
      else ⟨delivered, reg, none⟩ := rfl

theorem notifyFrom_cons (h : ℕ → HandlerSpec) (o : ℕ) (rest reg : List ℕ)
    (siUsed : ℕ) (delivered : List ℕ) :
    notifyFrom h (o :: rest) reg siUsed delivered =
      if reg.length ≠ siUsed then ⟨delivered, reg, some NotifyError.runtimeError⟩
      else if (h o).throws then ⟨delivered, reg, some (NotifyError.handlerException o)⟩
      else notifyFrom h rest (applyHandler reg (h o)) siUsed (delivered ++ [o]) := rfl

/-- Walking a clean prefix of the pending observers: each is delivered to,
and the registry and start size stay untouched. -/
theorem notifyFrom_clean_walk (h : ℕ → HandlerSpec) :
    ∀ (pending rest reg delivered : List ℕ),
      (∀ o ∈ pending, h o = cleanHandler) →
      notifyFrom h (pending ++ rest) reg reg.length delivered =
        notifyFrom h rest reg reg.length (delivered ++ pending) := by
  intro pending
  induction pending with
  | nil => intro rest reg delivered _; simp
  | cons o ps ih =>
    intro rest reg delivered hclean
    have ho : h o = cleanHandler := hclean o (by simp)
    have hps : ∀ x ∈ ps, h x = cleanHandler := fun x hx => hclean x (by simp [hx])
    rw [List.cons_append, notifyFrom_cons, if_neg (by simp), ho]
    rw [if_neg (by decide), applyHandler_clean]
    rw [ih rest reg (delivered ++ [o]) hps]
    simp

/-! ### The initial history map -/

theorem lookupA_foldl_insertA_const {β : Type} (v₀ : β) :
    ∀ (ids : List String) (m : List (String × β)) (k : String),
      lookupA k (ids.foldl (fun acc c => insertA c v₀ acc) m) =
        if k ∈ ids then some v₀ else lookupA k m := by
  intro ids
  induction ids with
  | nil => intro m k; simp
  | cons c rest ih =>
    intro m k
    rw [List.foldl_cons, ih]
    by_cases hkr : k ∈ rest
    · simp [hkr]
    · by_cases hkc : c = k
      · subst hkc
        simp [hkr, lookupA_insertA_self]
      · simp [hkr, lookupA_insertA_ne v₀ m hkc, Ne.symm hkc]

/-- A coin absent from the response leaves, over a whole list of processed
coins, its own entries untouched and produces no events; the cycle is the
same as if that coin were not iterated at all. -/
theorem processCoins_absent (th : ℚ) (resp : List (String × CoinData))
    (now : ℕ) (coin : String) (habs : lookupA coin resp = none) :
    ∀ (coins : List String) (s : EngineState),
      lookupA coin (processCoins th coins s resp now).1.latest_ticks =
        lookupA coin s.latest_ticks ∧
      lookupA coin (processCoins th coins s resp now).1.price_history =
        lookupA coin s.price_history ∧
      (∀ e ∈ (processCoins th coins s resp now).2, e.coinId ≠ coin) ∧
      processCoins th coins s resp now =
        processCoins th (coins.filter (fun c => c ≠ coin)) s resp now := by
  intro coins
  induction coins with
  | nil =>
    intro s
    exact ⟨rfl, rfl, fun e he => absurd he (by simp [processCoins]), rfl⟩
  | cons c rest ih =>
    intro s
    by_cases hc : c = coin
    · subst hc
      have hskip : processCoin th s c (lookupA c resp) now = (s, []) := by
        rw [habs]
        rfl
      rw [processCoins_cons, hskip]
      have hfil : (c :: rest).filter (fun x => x ≠ c) =
          rest.filter (fun x => x ≠ c) := by simp
      rw [hfil]
      obtain ⟨h1, h2, h3, h4⟩ := ih s
      exact ⟨by simpa using h1, by simpa using h2, by simpa using h3, by simpa using h4⟩
    · have hcc : coin ≠ c := Ne.symm hc
      rw [processCoins_cons]
      obtain ⟨h1, h2, h3, h4⟩ := ih (processCoin th s c (lookupA c resp) now).1
      refine ⟨?_, ?_, ?_, ?_⟩
      · dsimp only
        rw [h1, processCoin_ticks_ne th s _ now hcc]
      · dsimp only
        rw [h2, processCoin_hist_ne th s _ now hcc]
      · intro e he
        dsimp only at he
        rcases List.mem_append.mp he with he | he
        · rw [processCoin_events_coin th s c _ now e he]
          exact hc
        · exact h3 e he
      · have hfil : (c :: rest).filter (fun x => x ≠ coin) =
            c :: rest.filter (fun x => x ≠ coin) := by simp [hc]
        rw [hfil, processCoins_cons, ← h4]

/-! ## Claim theorems -/

/-- C1: for a tracked coin present in the fetch response, the events of
the cycle are exactly the alert-policy result followed by the new tick (so
an alert is broadcast iff the policy fires); no alert exists on a coin's
first tick; with a previous tick of positive price, an alert is produced
iff `|((new - old) / old) * 100| ≥ threshold` (inclusive), its kind is
`price_increase` when the change is positive and `price_decrease`
otherwise, and its `change_percent` is exactly the computed quotient. -/
theorem c1_alert_policy (threshold : ℚ) (s : EngineState) (coin_id : String)
    (d : CoinData) (now : ℕ) :
    ((processCoin threshold s coin_id (some d) now).2 =
      ((checkAlert threshold (lookupA coin_id s.latest_ticks)
          (mkTick coin_id d now) now).map Event.alert).toList ++
        [Event.tick (mkTick coin_id d now)]) ∧
    (checkAlert threshold none (mkTick coin_id d now) now = none) ∧
    (∀ old : CryptoTick, 0 < old.price_usd →
      ((checkAlert threshold (some old) (mkTick coin_id d now) now).isSome = true ↔
        threshold ≤
          |((mkTick coin_id d now).price_usd - old.price_usd) / old.price_usd * 100|)) ∧
    (∀ (old : CryptoTick) (a : PriceAlert), 0 < old.price_usd →
      checkAlert threshold (some old) (mkTick coin_id d now) now = some a →
      a.alert_type =
        (if 0 < ((mkTick coin_id d now).price_usd - old.price_usd) / old.price_usd * 100
          then PriceAlertType.price_increase else PriceAlertType.price_decrease) ∧
      a.change_percent =
        ((mkTick coin_id d now).price_usd - old.price_usd) / old.price_usd * 100) := by
  refine ⟨rfl, rfl, ?_, ?_⟩
  · intro old hold
    by_cases hth :
        threshold ≤
          |((mkTick coin_id d now).price_usd - old.price_usd) / old.price_usd * 100|
    · simp [checkAlert, hth, ge_iff_le]
    · simp [checkAlert, hth, ge_iff_le]
  · intro old a hold heq
    unfold checkAlert at heq
    dsimp only at heq
    split at heq
    · cases heq
      exact ⟨rfl, rfl⟩
    · exact absurd heq (by simp)

/-- The alert emitted in the concrete 20 → 30 scenario (+50 %). -/
def alertW : PriceAlert :=
  { coin_id := "bitcoin"
    symbol := "bitcoin"
    alert_type := PriceAlertType.price_increase
    old_price_usd := 20
    new_price_usd := 30
    change_percent := 50
    timestamp := 5 }

theorem c1_alert_policy_witness :
    ((processCoin 1 sTwoTicks "bitcoin" (some { usd := some 30 }) 5).2 =
      ((checkAlert 1 (lookupA "bitcoin" sTwoTicks.latest_ticks)
          (mkTick "bitcoin" { usd := some 30 } 5) 5).map Event.alert).toList ++
        [Event.tick (mkTick "bitcoin" { usd := some 30 } 5)]) ∧
    (0 < (tickOf 20 2).price_usd) ∧
    ((checkAlert 1 (some (tickOf 20 2))
        (mkTick "bitcoin" { usd := some 30 } 5) 5).isSome = true ↔
      1 ≤
        |((mkTick "bitcoin" { usd := some 30 } 5).price_usd - (tickOf 20 2).price_usd) /
            (tickOf 20 2).price_usd * 100|) ∧
    (checkAlert 1 (some (tickOf 20 2))
        (mkTick "bitcoin" { usd := some 30 } 5) 5 = some alertW) ∧
    (alertW.alert_type =
      (if 0 <
          ((mkTick "bitcoin" { usd := some 30 } 5).price_usd - (tickOf 20 2).price_usd) /
            (tickOf 20 2).price_usd * 100
        then PriceAlertType.price_increase else PriceAlertType.price_decrease) ∧
      alertW.change_percent =
        ((mkTick "bitcoin" { usd := some 30 } 5).price_usd - (tickOf 20 2).price_usd) /
          (tickOf 20 2).price_usd * 100) :=
  by
  have hca :
      checkAlert 1 (some (tickOf 20 2))
        (mkTick "bitcoin" { usd := some 30 } 5) 5 = some alertW := by
    norm_num [checkAlert, mkTick, tickOf, alertW, Option.getD]
  exact
    ⟨(c1_alert_policy 1 sTwoTicks "bitcoin" { usd := some 30 } 5).1,
      by decide,
      (c1_alert_policy 1 sTwoTicks "bitcoin" { usd := some 30 } 5).2.2.1
        (tickOf 20 2) (by decide),
      hca,
      (c1_alert_policy 1 sTwoTicks "bitcoin" { usd := some 30 } 5).2.2.2
        (tickOf 20 2) alertW (by decide) hca⟩

/-- C2: a History Buffer of capacity `C`, given `N > C` appended ticks,
ends up holding exactly the `C` most recently appended ticks in insertion
order (the oldest evicted first), its final length is `C`, and at every
intermediate point (after any prefix of the appends) its length is at most
`C`. -/
theorem c2_buffer_eviction (C : ℕ) (xs : List CryptoTick) (hN : C < xs.length) :
    ((BoundedDeque.empty CryptoTick C).pushAll xs).items =
      xs.drop (xs.length - C) ∧
    ((BoundedDeque.empty CryptoTick C).pushAll xs).items.length = C ∧
    ∀ k : ℕ,
      ((BoundedDeque.empty CryptoTick C).pushAll (xs.take k)).items.length ≤ C := by
  have hgen : ∀ ys : List CryptoTick,
      ((BoundedDeque.empty CryptoTick C).pushAll ys).items =
        ys.drop (ys.length - C) := by
    intro ys
    have h :=
      BoundedDeque.items_pushAll ys (BoundedDeque.empty CryptoTick C) []
        (by simp [BoundedDeque.empty])
    simpa [BoundedDeque.empty] using h
  refine ⟨hgen xs, ?_, ?_⟩
  · rw [hgen xs]
    rw [List.length_drop]
    omega
  · intro k
    rw [hgen (xs.take k)]
    rw [List.length_drop]
    omega

theorem c2_buffer_eviction_witness :
    3 < ticks4.length ∧
    (((BoundedDeque.empty CryptoTick 3).pushAll ticks4).items =
        ticks4.drop (ticks4.length - 3) ∧
      ((BoundedDeque.empty CryptoTick 3).pushAll ticks4).items.length = 3 ∧
      ∀ k : ℕ,
        ((BoundedDeque.empty CryptoTick 3).pushAll (ticks4.take k)).items.length ≤ 3) :=
  ⟨by decide, c2_buffer_eviction 3 ticks4 (by decide)⟩

/-- C7: `start` and `stop` are idempotent on the `{Stopped, Running}`
state: from Stopped, `start` enters Running and spawns exactly one task; a
second `start` is a no-op, so even after `start; start` only one task was
ever spawned; from Running, `stop` enters Stopped and clears the task
(swallowing the cancellation — `stop` is total and returns normally); a
second `stop` is a no-op. -/
theorem c7_lifecycle (cfg : Config) (s : EngineState) :
    (s.is_running = false →
      (start s).is_running = true ∧
      (start s).task = some s.next_task_id ∧
      (start s).next_task_id = s.next_task_id + 1) ∧
    (s.is_running = true → start s = s) ∧
    start (start s) = start s ∧
    (start (start (initialState cfg))).next_task_id = 1 ∧
    (s.is_running = true →
      (stop s).is_running = false ∧ (stop s).task = none) ∧
    (s.is_running = false → stop s = s) ∧
    stop (stop s) = stop s := by
  refine ⟨?_, ?_, ?_, ?_, ?_, ?_, ?_⟩
  · intro h
    simp [start, h]
  · intro h
    simp [start, h]
  · by_cases h : s.is_running <;> simp [start, h]
  · simp [start, initialState]
  · intro h
    simp [stop, h]
  · intro h
    simp [stop, h]
  · by_cases h : s.is_running <;> simp [stop, h]

theorem c7_lifecycle_witness :
    ((start (initialState cfgB)).is_running = true ∧
      (start (initialState cfgB)).task = some (initialState cfgB).next_task_id ∧
      (start (initialState cfgB)).next_task_id = (initialState cfgB).next_task_id + 1) ∧
    (start (start (initialState cfgB)) = start (initialState cfgB)) ∧
    ((stop (start (initialState cfgB))).is_running = false ∧
      (stop (start (initialState cfgB))).task = none) ∧
    (stop (initialState cfgB) = initialState cfgB) :=
  ⟨(c7_lifecycle cfgB (initialState cfgB)).1 (by decide),
    (c7_lifecycle cfgB (initialState cfgB)).2.2.1,
    (c7_lifecycle cfgB (start (initialState cfgB))).2.2.2.2.1 (by decide),
    (c7_lifecycle cfgB (initialState cfgB)).2.2.2.2.2.1 (by decide)⟩

/-- C8: a tracked coin absent from the fetch response is skipped for the
cycle: its `latest_ticks` entry and history buffer are unchanged, no event
(tick or alert) concerning it is broadcast, and the cycle is identical to
one that never iterates that coin — the other coins are processed exactly
as usual. -/
theorem c8_absent_instrument (cfg : Config) (s : EngineState)
    (resp : List (String × CoinData)) (now : ℕ) (coin : String)
    (habs : lookupA coin resp = none) :
    lookupA coin (fetchAndProcess cfg s resp now).1.latest_ticks =
      lookupA coin s.latest_ticks ∧
    lookupA coin (fetchAndProcess cfg s resp now).1.price_history =
      lookupA coin s.price_history ∧
    (∀ e ∈ (fetchAndProcess cfg s resp now).2, e.coinId ≠ coin) ∧
    fetchAndProcess cfg s resp now =
      processCoins cfg.threshold (cfg.crypto_ids.filter (fun c => c ≠ coin))
        s resp now :=
  processCoins_absent cfg.threshold resp now coin habs cfg.crypto_ids s

theorem c8_absent_instrument_witness :
    lookupA "bitcoin" respEth = none ∧
    (lookupA "bitcoin" (fetchAndProcess cfg2 (initialState cfg2) respEth 1).1.latest_ticks =
        lookupA "bitcoin" (initialState cfg2).latest_ticks ∧
      lookupA "bitcoin" (fetchAndProcess cfg2 (initialState cfg2) respEth 1).1.price_history =
        lookupA "bitcoin" (initialState cfg2).price_history ∧
      (∀ e ∈ (fetchAndProcess cfg2 (initialState cfg2) respEth 1).2, e.coinId ≠ "bitcoin") ∧
      fetchAndProcess cfg2 (initialState cfg2) respEth 1 =
        processCoins cfg2.threshold (cfg2.crypto_ids.filter (fun c => c ≠ "bitcoin"))
          (initialState cfg2) respEth 1) :=
  ⟨by decide,
    c8_absent_instrument cfg2 (initialState cfg2) respEth 1 "bitcoin" (by decide)⟩

/-- One processed coin preserves the maps-coherence invariant. -/
theorem mapsInv_processCoin (cfg : Config) (th : ℚ) (s : EngineState)
    (coin : String) (entry : Option CoinData) (now : ℕ)
    (hmem : coin ∈ cfg.crypto_ids) (hinv : MapsInv cfg s) :
    MapsInv cfg (processCoin th s coin entry now).1 := by
  obtain ⟨h1, h2, h3⟩ := hinv
  cases entry with
  | none => exact ⟨h1, h2, h3⟩
  | some d =>
    refine ⟨?_, ?_, ?_⟩
    · intro k
      show (lookupA k (updateHistory coin (mkTick coin d now) s.price_history)).isSome
          = true ↔ _
      rw [lookupA_updateHistory]
      by_cases hk : k = coin
      · rw [if_pos hk]
        have base := h1 k
        cases hph : lookupA k s.price_history with
        | none =>
          rw [hph] at base
          simpa using base
        | some d0 =>
          rw [hph] at base
          simpa using base
      · rw [if_neg hk]
        exact h1 k
    · intro k hk
      have := (isSome_lookupA_insertA k coin (mkTick coin d now) s.latest_ticks).mp hk
      rcases this with h | h
      · exact h ▸ hmem
      · exact h2 k h
    · intro k d' hd' hne
      have hd'2 : lookupA k (updateHistory coin (mkTick coin d now) s.price_history)
          = some d' := hd'
      rw [lookupA_updateHistory] at hd'2
      by_cases hk : k = coin
      · rw [if_pos hk] at hd'2
        rcases Option.map_eq_some'.mp hd'2 with ⟨d₀, hd₀, hpush⟩
        refine ⟨mkTick coin d now, ?_, ?_⟩
        · show lookupA k (insertA coin (mkTick coin d now) s.latest_ticks) = _
          rw [hk]
          exact lookupA_insertA_self _ _ _
        · rw [← hpush]
          exact BoundedDeque.getLast_push d₀ (mkTick coin d now)
            (by rw [hpush]; exact hne)
      · rw [if_neg hk] at hd'2
        obtain ⟨t, ht, hlast⟩ := h3 k d' hd'2 hne
        refine ⟨t, ?_, hlast⟩
        show lookupA k (insertA coin (mkTick coin d now) s.latest_ticks) = _
        rw [lookupA_insertA_ne _ _ (Ne.symm hk)]
        exact ht

/-- A whole list of processed coins (all tracked) preserves the invariant:
this covers every intermediate state of the per-cycle loop, i.e. every
point at which the engine can yield control mid-cycle. -/
theorem mapsInv_processCoins (cfg : Config) (th : ℚ)
    (resp : List (String × CoinData)) (now : ℕ) :
    ∀ (coins : List String) (s : EngineState),
      (∀ c ∈ coins, c ∈ cfg.crypto_ids) → MapsInv cfg s →
      MapsInv cfg (processCoins th coins s resp now).1 := by
  intro coins
  induction coins with
  | nil => intro s _ hinv; exact hinv
  | cons c rest ih =>
    intro s hmem hinv
    rw [processCoins_cons]
    exact ih _ (fun x hx => hmem x (by simp [hx]))
      (mapsInv_processCoin cfg th s c _ now (hmem c (by simp)) hinv)

/-- C10: engine-state coherence. The invariant — `price_history`'s key set
equals the tracked-coin list, `latest_ticks`'s key set is a subset of it,
and a coin with a non-empty buffer has its latest tick equal to the last
element of its buffer — holds of the freshly constructed engine, is
preserved by each single coin-processing step (hence at every mid-cycle
yield point: the alert broadcast happens before the two map writes, which
are adjacent with no yield between them), and is preserved by a whole
cycle whatever the fetch outcome. -/
theorem c10_state_coherence (cfg : Config) :
    MapsInv cfg (initialState cfg) ∧
    (∀ (s : EngineState) (coin : String) (entry : Option CoinData) (now : ℕ),
      coin ∈ cfg.crypto_ids → MapsInv cfg s →
      MapsInv cfg (processCoin cfg.threshold s coin entry now).1) ∧
    (∀ (coins : List String) (s : EngineState)
        (resp : List (String × CoinData)) (now : ℕ),
      (∀ c ∈ coins, c ∈ cfg.crypto_ids) → MapsInv cfg s →
      MapsInv cfg (processCoins cfg.threshold coins s resp now).1) ∧
    (∀ (sqrtQ : ℚ → ℚ) (s : EngineState)
        (fetch : Except FetchError (List (String × CoinData))) (now : ℕ),
      MapsInv cfg s → MapsInv cfg (monitorCycle cfg sqrtQ s fetch now).1) := by
  refine ⟨?_, ?_, ?_, ?_⟩
  · refine ⟨?_, ?_, ?_⟩
    · intro k
      show (lookupA k (cfg.crypto_ids.foldl
          (fun m c => insertA c (BoundedDeque.empty CryptoTick cfg.buffer_size) m) [])).isSome
            = true ↔ _
      rw [lookupA_foldl_insertA_const]
      by_cases hk : k ∈ cfg.crypto_ids <;> simp [hk, lookupA]
    · intro k hk
      exact absurd hk (by simp [initialState, lookupA])
    · intro k d hd hne
      exfalso
      apply hne
      have : lookupA k (cfg.crypto_ids.foldl
          (fun m c => insertA c (BoundedDeque.empty CryptoTick cfg.buffer_size) m) []) =
            if k ∈ cfg.crypto_ids then some (BoundedDeque.empty CryptoTick cfg.buffer_size)
            else lookupA k ([] : List (String × BoundedDeque CryptoTick)) :=
        lookupA_foldl_insertA_const _ _ _ _
      rw [show lookupA k (initialState cfg).price_history = _ from this] at hd
      by_cases hk : k ∈ cfg.crypto_ids
      · rw [if_pos hk] at hd
        cases hd
        rfl
      · rw [if_neg hk] at hd
        exact absurd hd (by simp [lookupA])
  · intro s coin entry now hmem hinv
    exact mapsInv_processCoin cfg cfg.threshold s coin entry now hmem hinv
  · intro coins s resp now hmem hinv
    exact mapsInv_processCoins cfg cfg.threshold resp now coins s hmem hinv
  · intro sqrtQ s fetch now hinv
    cases fetch with
    | error e => exact hinv
    | ok resp =>
      have h1 := mapsInv_processCoins cfg cfg.threshold resp now cfg.crypto_ids s
        (fun c hc => hc) hinv
      exact h1

theorem c10_state_coherence_witness :
    MapsInv cfgB (initialState cfgB) ∧
    MapsInv cfgB (processCoin cfgB.threshold (initialState cfgB) "bitcoin"
      (some { usd := some 5 }) 1).1 ∧
    MapsInv cfgB (processCoins cfgB.threshold ["bitcoin"] (initialState cfgB)
      respPos 1).1 ∧
    MapsInv cfgB (monitorCycle cfgB id (initialState cfgB)
      (Except.ok respPos) 1).1 :=
  ⟨(c10_state_coherence cfgB).1,
    (c10_state_coherence cfgB).2.1 (initialState cfgB) "bitcoin"
      (some { usd := some 5 }) 1 (by decide) (c10_state_coherence cfgB).1,
    (c10_state_coherence cfgB).2.2.1 ["bitcoin"] (initialState cfgB) respPos 1
      (by decide) (c10_state_coherence cfgB).1,
    (c10_state_coherence cfgB).2.2.2 id (initialState cfgB)
      (Except.ok respPos) 1 (c10_state_coherence cfgB).1⟩

/-- C6: in every successfully computed statistics snapshot, `sma_20` and
`ema_20` are `none` exactly when the buffer holds fewer than 20 ticks and
set for 20 or more; `volatility_24h` is `none` exactly below 5 and set
for 5 or more.  Moreover the statistics loop recomputes a coin only when
its buffer has at least 2 entries, and — for an arbitrary per-coin
computation, hence an arbitrary per-coin exception — a failing computation
leaves that coin's previous statistics in place and does not disturb any
other coin. -/
theorem c6_statistics_gating :
    (∀ (sqrtQ : ℚ → ℚ) (lt : List (String × CryptoTick)) (coin : String)
        (history : List CryptoTick) (now : ℕ) (st : StatisticsModel),
      computeStatsForCoin sqrtQ lt coin history now = Except.ok st →
      ((st.sma_20.isSome = true ↔ 20 ≤ history.length) ∧
        (st.ema_20.isSome = true ↔ 20 ≤ history.length) ∧
        (st.volatility_24h.isSome = true ↔ 5 ≤ history.length))) ∧
    (∀ (f : String → List CryptoTick → Except String StatisticsModel)
        (s : EngineState) (coin : String),
      (s.price_history.map Prod.fst).Nodup →
      lookupA coin (calculateStatisticsWith f s).latest_stats =
        match lookupA coin s.price_history with
        | none => lookupA coin s.latest_stats
        | some d =>
          if d.items.length < 2 then lookupA coin s.latest_stats
          else
            match f coin d.items with
            | Except.ok st => some st
            | Except.error _ => lookupA coin s.latest_stats) := by
  constructor
  · intro sqrtQ lt coin history now st h
    unfold computeStatsForCoin at h
    dsimp only at h
    cases hlt : lookupA coin lt with
    | none =>
      rw [hlt] at h
      exact absurd h (by simp)
    | some l =>
      rw [hlt] at h
      cases h
      have hn : ((sortByTs history).map (fun t => t.price_usd)).length
          = history.length := by
        rw [List.length_map, length_sortByTs]
      refine ⟨?_, ?_, ?_⟩
      · show (if 20 ≤ ((sortByTs history).map (fun t => t.price_usd)).length
            then _ else none).isSome = true ↔ _
        rw [hn]
        by_cases h20 : 20 ≤ history.length <;> simp [h20]
      · show (if 20 ≤ ((sortByTs history).map (fun t => t.price_usd)).length
            then _ else none).isSome = true ↔ _
        rw [hn]
        by_cases h20 : 20 ≤ history.length <;> simp [h20]
      · show (if 5 ≤ ((sortByTs history).map (fun t => t.price_usd)).length
            then _ else none).isSome = true ↔ _
        rw [hn]
        by_cases h5 : 5 ≤ history.length <;> simp [h5]
  · intro f s coin hnd
    exact statsLoop_lookup f coin s.price_history s.latest_stats hnd

theorem c6_statistics_gating_witness :
    (computeStatsForCoin id [("bitcoin", tickOf 20 2)] "bitcoin"
        [tickOf 10 1, tickOf 20 2] 3 = Except.ok stW) ∧
    ((stW.sma_20.isSome = true ↔
        20 ≤ ([tickOf 10 1, tickOf 20 2] : List CryptoTick).length) ∧
      (stW.ema_20.isSome = true ↔
        20 ≤ ([tickOf 10 1, tickOf 20 2] : List CryptoTick).length) ∧
      (stW.volatility_24h.isSome = true ↔
        5 ≤ ([tickOf 10 1, tickOf 20 2] : List CryptoTick).length)) ∧
    ((sTwoTicks.price_history.map Prod.fst).Nodup) ∧
    (lookupA "bitcoin" (calculateStatisticsWith errCompute sTwoTicks).latest_stats =
      match lookupA "bitcoin" sTwoTicks.price_history with
      | none => lookupA "bitcoin" sTwoTicks.latest_stats
      | some d =>
        if d.items.length < 2 then lookupA "bitcoin" sTwoTicks.latest_stats
        else
          match errCompute "bitcoin" d.items with
          | Except.ok st => some st
          | Except.error _ => lookupA "bitcoin" sTwoTicks.latest_stats) := by
  have hok : computeStatsForCoin id [("bitcoin", tickOf 20 2)] "bitcoin"
      [tickOf 10 1, tickOf 20 2] 3 = Except.ok stW := rfl
  exact
    ⟨hok,
      c6_statistics_gating.1 id [("bitcoin", tickOf 20 2)] "bitcoin"
        [tickOf 10 1, tickOf 20 2] 3 stW hok,
      by decide,
      c6_statistics_gating.2 errCompute sTwoTicks "bitcoin" (by decide)⟩

/-- Counterexample to C3 as stated: the claim says a failed fetch still
"proceeds with the cycle's remaining step (statistics recomputation)".  In
the code, `_fetch_and_process_prices` and `_calculate_statistics` sit in
the same `try` block, so a fetch failure skips the statistics too.  On a
state with a two-tick bitcoin buffer and empty `latest_stats`, a failing
cycle leaves `latest_stats` empty — while the statistics recomputation,
had it run as the claim asserts, would have populated it. -/
theorem c3_counterexample :
    (monitorCycle cfgB id sTwoTicks (Except.error (FetchError.apiError "boom")) 3)
      = (sTwoTicks, []) ∧
    (monitorCycle cfgB id sTwoTicks (Except.error (FetchError.apiError "boom")) 3).1.latest_stats
      = [] ∧
    (calculateStatistics id 3 sTwoTicks).latest_stats = [("bitcoin", stW)] ∧
    [("bitcoin", stW)] ≠ ([] : List (String × StatisticsModel)) := by
  refine ⟨rfl, rfl, rfl, by simp⟩

/-- C3 (amended): if the fetch of a cycle fails — any kind of failure —
the engine logs and skips the **whole** remainder of the cycle, including
the statistics recomputation, proceeding directly to the sleep: the state
is unchanged and nothing is broadcast.  The monitoring loop never
terminates because of a data-fetch failure, and the Running/Stopped flag
is unchanged by any cycle whatever its outcome — only an explicit `stop()`
halts the loop; conversely, once the engine is Stopped the loop guard
prevents any further cycle from running at all. -/
theorem c3_fetch_failure (cfg : Config) (sqrtQ : ℚ → ℚ) (s : EngineState)
    (e : FetchError)
    (fetch : Except FetchError (List (String × CoinData))) (now : ℕ) :
    monitorCycle cfg sqrtQ s (Except.error e) now = (s, []) ∧
    (monitorCycle cfg sqrtQ s fetch now).1.is_running = s.is_running ∧
    (s.is_running = true →
      (loopStep cfg sqrtQ s fetch now).2.2 = true) ∧
    (s.is_running = false →
      loopStep cfg sqrtQ s fetch now = (s, [], false)) := by
  have hrun : (monitorCycle cfg sqrtQ s fetch now).1.is_running = s.is_running := by
    cases fetch with
    | error e' => rfl
    | ok resp =>
      show (calculateStatistics sqrtQ now
          (fetchAndProcess cfg s resp now).1).is_running = s.is_running
      rw [show (calculateStatistics sqrtQ now
            (fetchAndProcess cfg s resp now).1).is_running
          = (fetchAndProcess cfg s resp now).1.is_running from rfl]
      exact processCoins_is_running cfg.threshold cfg.crypto_ids resp now s
  refine ⟨rfl, hrun, ?_, ?_⟩
  · intro h
    simp only [loopStep, h, if_pos]
    exact hrun.trans h
  · intro h
    simp [loopStep, h]

theorem c3_fetch_failure_witness :
    (monitorCycle cfgB id sTwoTicks (Except.error FetchError.rateLimit) 9
      = (sTwoTicks, [])) ∧
    ((monitorCycle cfgB id sTwoTicks (Except.ok respPos) 9).1.is_running
      = sTwoTicks.is_running) ∧
    (sTwoTicks.is_running = true) ∧
    ((loopStep cfgB id sTwoTicks (Except.ok respPos) 9).2.2 = true) ∧
    ((initialState cfgB).is_running = false) ∧
    (loopStep cfgB id (initialState cfgB) (Except.ok respPos) 9
      = (initialState cfgB, [], false)) :=
  ⟨(c3_fetch_failure cfgB id sTwoTicks FetchError.rateLimit
      (Except.ok respPos) 9).1,
    (c3_fetch_failure cfgB id sTwoTicks FetchError.rateLimit
      (Except.ok respPos) 9).2.1,
    by decide,
    (c3_fetch_failure cfgB id sTwoTicks FetchError.rateLimit
      (Except.ok respPos) 9).2.2.1 (by decide),
    by decide,
    (c3_fetch_failure cfgB id (initialState cfgB) FetchError.rateLimit
      (Except.ok respPos) 9).2.2.2 (by decide)⟩

/-- Counterexample to C4 as stated: `notify_observers` iterates the live
set, not a snapshot.  With observers {0, 1} where observer 0 unregisters
observer 1 during its `update`, the set shrinks mid-iteration: the next
`__next__` call raises `RuntimeError`, the broadcast fails, and observer 1
— registered when the broadcast started — never receives the event. -/
theorem c4_counterexample :
    notifyObservers hUnreg [0, 1] =
      { delivered := [0], registry := [0],
        error := some NotifyError.runtimeError } ∧
    (1 : ℕ) ∈ ([0, 1] : List ℕ) ∧
    (1 : ℕ) ∉ (notifyObservers hUnreg [0, 1]).delivered := by
  refine ⟨rfl, by decide, by decide⟩

/-- C4 (amended): `broadcast` iterates the **live** subscriber set rather
than a snapshot.  When no subscriber mutates the registry (or raises)
during delivery, every subscriber registered at the start is delivered to,
in iteration order, and the broadcast succeeds.  But a registration or
unregistration performed during delivery that changes the set's size makes
the in-flight broadcast raise a `RuntimeError` at the next iteration step:
concurrent registry mutation can both change which subscribers are
delivered to and make the broadcast itself fail. -/
theorem c4_live_iteration (h : ℕ → HandlerSpec) (reg : List ℕ) :
    ((∀ o ∈ reg, h o = cleanHandler) →
      notifyObservers h reg =
        { delivered := reg, registry := reg, error := none }) ∧
    (∀ (pre : List ℕ) (o : ℕ) (post : List ℕ),
      reg = pre ++ o :: post →
      (∀ x ∈ pre, h x = cleanHandler) →
      (h o).throws = false →
      (applyHandler reg (h o)).length ≠ reg.length →
      notifyObservers h reg =
        { delivered := pre ++ [o], registry := applyHandler reg (h o),
          error := some NotifyError.runtimeError }) := by
  constructor
  · intro hclean
    show notifyFrom h reg reg reg.length [] = _
    have hwalk := notifyFrom_clean_walk h reg [] reg [] hclean
    rw [List.append_nil] at hwalk
    rw [hwalk, notifyFrom_nil, if_neg (by simp)]
    simp
  · intro pre o post hreg hclean hth hlen
    subst hreg
    show notifyFrom h (pre ++ o :: post) (pre ++ o :: post)
        (pre ++ o :: post).length [] = _
    rw [notifyFrom_clean_walk h pre (o :: post) (pre ++ o :: post) [] hclean]
    rw [notifyFrom_cons, if_neg (by simp), if_neg (by simp [hth])]
    cases post with
    | nil =>
      rw [notifyFrom_nil, if_pos hlen]
      simp
    | cons p ps =>
      rw [notifyFrom_cons, if_pos hlen]
      simp

theorem c4_live_iteration_witness :
    (notifyObservers (fun _ => cleanHandler) [0, 1] =
      { delivered := [0, 1], registry := [0, 1], error := none }) ∧
    (([0, 1] : List ℕ) = [] ++ 0 :: [1]) ∧
    ((hUnreg 0).throws = false) ∧
    ((applyHandler [0, 1] (hUnreg 0)).length ≠ ([0, 1] : List ℕ).length) ∧
    (notifyObservers hUnreg [0, 1] =
      { delivered := [] ++ [0], registry := applyHandler [0, 1] (hUnreg 0),
        error := some NotifyError.runtimeError }) :=
  ⟨(c4_live_iteration (fun _ => cleanHandler) [0, 1]).1 (fun o _ => rfl),
    rfl,
    by decide,
    by decide,
    (c4_live_iteration hUnreg [0, 1]).2 [] 0 [1] rfl (by simp)
      (by decide) (by decide)⟩

/-- Counterexample to C5 as stated: `notify_observers` has no
`try`/`except` around the awaited handler.  With observers {0, 1} where
observer 0 raises in `update`, the exception escapes to the caller of
`broadcast` and observer 1 never receives the event. -/
theorem c5_counterexample :
    notifyObservers hThrow [0, 1] =
      { delivered := [], registry := [0, 1],
        error := some (NotifyError.handlerException 0) } ∧
    (notifyObservers hThrow [0, 1]).error ≠ none ∧
    (1 : ℕ) ∉ (notifyObservers hThrow [0, 1]).delivered := by
  refine ⟨rfl, by decide, by decide⟩

/-- C5 (amended): an exception raised by one subscriber's handler is
**not** caught inside the notification hub: it propagates to the caller of
`broadcast`, the subscribers already iterated keep their deliveries, and
the subscribers not yet iterated receive nothing for that event. -/
theorem c5_handler_exception (h : ℕ → HandlerSpec) (pre : List ℕ) (b : ℕ)
    (post : List ℕ) (hclean : ∀ o ∈ pre, h o = cleanHandler)
    (hthrow : (h b).throws = true) :
    notifyObservers h (pre ++ b :: post) =
      { delivered := pre, registry := pre ++ b :: post,
        error := some (NotifyError.handlerException b) } := by
  show notifyFrom h (pre ++ b :: post) (pre ++ b :: post)
      (pre ++ b :: post).length [] = _
  rw [notifyFrom_clean_walk h pre (b :: post) (pre ++ b :: post) [] hclean]
  rw [notifyFrom_cons, if_neg (by simp), if_pos hthrow]
  simp

theorem c5_handler_exception_witness :
    ((hThrow 0).throws = true) ∧
    (notifyObservers hThrow ([] ++ 0 :: [1]) =
      { delivered := [], registry := [] ++ 0 :: [1],
        error := some (NotifyError.handlerException 0) }) :=
  ⟨by decide, c5_handler_exception hThrow [] 0 [1] (by simp) (by decide)⟩

theorem mem_updateHistory {p : String × BoundedDeque CryptoTick} {c : String}
    {t : CryptoTick} :
    ∀ {l : List (String × BoundedDeque CryptoTick)}, p ∈ updateHistory c t l →
      p ∈ l ∨ ∃ p₀, p₀ ∈ l ∧ p = (p₀.1, p₀.2.push t) := by
  intro l
  induction l with
  | nil => intro h; exact absurd h (by simp [updateHistory])
  | cons q rest ih =>
    intro h
    obtain ⟨k, d⟩ := q
    by_cases hk : k = c
    · rw [updateHistory, if_pos hk] at h
      rcases List.mem_cons.mp h with h | h
      · exact Or.inr ⟨(k, d), by simp, h⟩
      · exact Or.inl (List.mem_cons_of_mem _ h)
    · rw [updateHistory, if_neg hk] at h
      rcases List.mem_cons.mp h with h | h
      · exact Or.inl (by simp [h])
      · rcases ih h with h' | ⟨p₀, hp₀, hpe⟩
        · exact Or.inl (List.mem_cons_of_mem _ h')
        · exact Or.inr ⟨p₀, List.mem_cons_of_mem _ hp₀, hpe⟩

/-- Positivity of all stored prices is preserved through a list of
processed coins, provided every response entry the loop can accept — one
whose key is among the iterated coins — carries a positive `usd` value. -/
theorem processCoins_pos (th : ℚ) (resp : List (String × CoinData)) (now : ℕ) :
    ∀ (coins : List String) (s : EngineState),
      (∀ p ∈ resp, p.1 ∈ coins → ∃ q, p.2.usd = some q ∧ 0 < q) →
      storedPricesPos s → storedPricesPos (processCoins th coins s resp now).1 := by
  intro coins
  induction coins with
  | nil => intro s _ hs; exact hs
  | cons c rest ih =>
    intro s hresp hs
    rw [processCoins_cons]
    apply ih _ (fun p hp hm => hresp p hp (List.mem_cons_of_mem c hm))
    cases hlr : lookupA c resp with
    | none => exact hs
    | some d =>
      obtain ⟨q, hq, hqpos⟩ := hresp (c, d) (lookupA_mem hlr) (by simp)
      have hprice : (mkTick c d now).price_usd = q := by
        show d.usd.getD 0 = q
        rw [hq]
        rfl
      obtain ⟨hs1, hs2⟩ := hs
      constructor
      · intro p hp
        rcases mem_insertA hp with hpe | hpm
        · rw [hpe]
          show 0 < (mkTick c d now).price_usd
          rw [hprice]
          exact hqpos
        · exact hs1 p hpm
      · intro p hp t ht
        rcases mem_updateHistory hp with hpm | ⟨p₀, hp₀, hpe⟩
        · exact hs2 p hpm t ht
        · rw [hpe] at ht
          rcases BoundedDeque.mem_push ht with ht' | ht'
          · exact hs2 p₀ hp₀ t ht'
          · rw [ht', hprice]
            exact hqpos

/-- Counterexample to C9 as stated: a tick is built with
`price_usd = current_data.get("usd", 0.0)`, so a response entry that is
present but lacks the `usd` field yields a stored tick of price `0.0` —
not strictly positive — in both `latest_ticks` and the history buffer. -/
theorem c9_counterexample :
    (lookupA "bitcoin"
        (fetchAndProcess cfgB (initialState cfgB) respNoUsd 1).1.latest_ticks).map
      (fun t => t.price_usd) = some 0 ∧
    (lookupA "bitcoin"
        (fetchAndProcess cfgB (initialState cfgB) respNoUsd 1).1.price_history).map
      (fun d => d.items.map (fun t => t.price_usd)) = some [0] ∧
    ¬ (0 : ℚ) < 0 := by
  refine ⟨rfl, rfl, by norm_num⟩

/-- C9 (amended): every stored tick's price equals the `usd` value of the
accepted response entry, defaulting to `0` when the entry lacks that field
— no positivity check is performed.  Stored prices are strictly positive
provided every response entry the engine can accept (one for a tracked
coin) carries a strictly positive `usd` value and the previously stored
prices were positive. -/
theorem c9_positive_prices (cfg : Config) (s : EngineState)
    (resp : List (String × CoinData)) (now : ℕ)
    (hs : storedPricesPos s)
    (hresp : ∀ p ∈ resp, p.1 ∈ cfg.crypto_ids → ∃ q, p.2.usd = some q ∧ 0 < q) :
    (∀ (c : String) (d : CoinData), (mkTick c d now).price_usd = d.usd.getD 0) ∧
    storedPricesPos (fetchAndProcess cfg s resp now).1 :=
  ⟨fun _ _ => rfl,
    processCoins_pos cfg.threshold resp now cfg.crypto_ids s hresp hs⟩

theorem c9_positive_prices_witness :
    storedPricesPos (initialState cfgB) ∧
    (∀ p ∈ respPos, p.1 ∈ cfgB.crypto_ids → ∃ q, p.2.usd = some q ∧ 0 < q) ∧
    ((∀ (c : String) (d : CoinData), (mkTick c d 1).price_usd = d.usd.getD 0) ∧
      storedPricesPos (fetchAndProcess cfgB (initialState cfgB) respPos 1).1) := by
  have hs : storedPricesPos (initialState cfgB) := by
    constructor
    · intro p hp
      exact absurd hp (List.not_mem_nil p)
    · intro p hp t ht
      have hp2 : p ∈ [("bitcoin", BoundedDeque.empty CryptoTick 10)] := hp
      rw [List.mem_singleton.mp hp2] at ht
      exact absurd ht (List.not_mem_nil t)
  have hresp : ∀ p ∈ respPos, p.1 ∈ cfgB.crypto_ids →
      ∃ q, p.2.usd = some q ∧ 0 < q := by
    intro p hp _
    have hp2 : p ∈ [("bitcoin", ({ usd := some 5 } : CoinData))] := hp
    rw [List.mem_singleton.mp hp2]
    exact ⟨5, rfl, by decide⟩
  exact ⟨hs, hresp, c9_positive_prices cfgB (initialState cfgB) respPos 1 hs hresp⟩

end CryptoMonitor
